import Mathlib

/-!
Shallow embedding of the dependency-graph resolution engine of `src/main.py`:
the APKINDEX record parser (`parse_apkindex`), root resolution
(`get_direct_deps_real`), the test-graph parser (`read_test_graph`),
the iterative depth-bounded DFS (`build_graph_iterative_dfs`), the
substring filter (`make_filtered_neighbors`) and the reverse-adjacency
construction of `stage4_reverse_dependencies`.

Python dicts are modelled as insertion-ordered association lists; Python
sets as lists used only through membership; the possibly-raising neighbour
lookup as a function into `Except`.  The DFS `while` loop is run with an
explicitly computed fuel that bounds the number of iterations; a run whose
final work stack is empty is a run the Python loop completes.
-/

/-! ### Python-style string helpers -/

/-- Characters `str.strip()` / `str.split()` treat as whitespace. -/
def pyIsSpace (c : Char) : Bool :=
  c = ' ' || c = '\t' || c = '\n' || c = '\r' || c = '\x0b' || c = '\x0c'

/-- Python `str.strip()` on a list of characters. -/
def pyStrip (cs : List Char) : List Char :=
  ((cs.dropWhile pyIsSpace).reverse.dropWhile pyIsSpace).reverse

/-- Worker for `pySplitlines`; `acc` is the reversed current line. -/
def pySplitlinesGo : List Char → List Char → List (List Char)
  | [], acc => [acc.reverse]
  | '\r' :: '\n' :: rest, acc =>
    acc.reverse :: (match rest with | [] => [] | _ :: _ => pySplitlinesGo rest [])
  | '\n' :: rest, acc =>
    acc.reverse :: (match rest with | [] => [] | _ :: _ => pySplitlinesGo rest [])
  | '\r' :: rest, acc =>
    acc.reverse :: (match rest with | [] => [] | _ :: _ => pySplitlinesGo rest [])
  | c :: rest, acc => pySplitlinesGo rest (c :: acc)

/-- Python `str.splitlines()` (restricted to the `\n`, `\r\n`, `\r`
terminators; the rarer Unicode line boundaries are not modelled). -/
def pySplitlines (cs : List Char) : List (List Char) :=
  match cs with
  | [] => []
  | _ :: _ => pySplitlinesGo cs []

/-- Worker for `pySplitWs`; `acc` is the reversed current token. -/
def pySplitWsGo : List Char → List Char → List (List Char)
  | [], acc => if acc.isEmpty then [] else [acc.reverse]
  | c :: rest, acc =>
    if pyIsSpace c then
      if acc.isEmpty then pySplitWsGo rest [] else acc.reverse :: pySplitWsGo rest []
    else pySplitWsGo rest (c :: acc)

/-- Python `str.split()` with no argument: split on whitespace runs,
dropping empty tokens. -/
def pySplitWs (cs : List Char) : List (List Char) :=
  pySplitWsGo cs []

/-- Python `str.split(",")`: split at every comma, keeping empty parts. -/
def pySplitComma : List Char → List (List Char)
  | [] => [[]]
  | c :: rest =>
    if c = ',' then [] :: pySplitComma rest
    else
      match pySplitComma rest with
      | [] => [[c]]
      | t :: ts => (c :: t) :: ts

/-- Python `str.startswith`: the second list is a prefix of the first. -/
def listStartsWith : List Char → List Char → Bool
  | _, [] => true
  | [], _ :: _ => false
  | c :: l, d :: p => c = d && listStartsWith l p

/-- Python `sub in s` on lists of characters. -/
def listContains : List Char → List Char → Bool
  | [], sub => listStartsWith [] sub
  | c :: t, sub => listStartsWith (c :: t) sub || listContains t sub

/-- Python `sub in s` on strings. -/
def strContains (s sub : String) : Bool :=
  listContains s.toList sub.toList

/-! ### Python dicts as insertion-ordered association lists -/

/-- `d.get(k)`: first value stored under key `k`. -/
def alookup {β : Type} : List (String × β) → String → Option β
  | [], _ => none
  | p :: rest, k => if p.1 = k then some p.2 else alookup rest k

/-- `d.setdefault(k, v)`: insert `(k, v)` at the end when `k` is absent. -/
def dictSetdefault {β : Type} (d : List (String × β)) (k : String) (v : β) :
    List (String × β) :=
  if (alookup d k).isSome then d else d ++ [(k, v)]

/-- `d[k] = v`: update in place when present, else insert at the end. -/
def dictSet {β : Type} (d : List (String × β)) (k : String) (v : β) :
    List (String × β) :=
  if (alookup d k).isSome then d.map (fun p => if p.1 = k then (p.1, v) else p)
  else d ++ [(k, v)]

/-- `d[k].append(x)` for a dict of lists (no-op on an absent key). -/
def dictAppend (d : List (String × List String)) (k : String) (x : String) :
    List (String × List String) :=
  d.map (fun p => if p.1 = k then (p.1, p.2 ++ [x]) else p)

@[simp] lemma alookup_nil {β : Type} (k : String) :
    alookup ([] : List (String × β)) k = none := rfl

@[simp] lemma alookup_cons {β : Type} (p : String × β) (d : List (String × β)) (k : String) :
    alookup (p :: d) k = if p.1 = k then some p.2 else alookup d k := rfl

lemma alookup_append {β : Type} (a b : List (String × β)) (k : String) :
    alookup (a ++ b) k =
      match alookup a k with
      | some v => some v
      | none => alookup b k := by
  induction a with
  | nil => simp
  | cons p rest ih =>
    by_cases h : p.1 = k <;> simp [h, ih]

lemma alookup_isSome_iff {β : Type} (d : List (String × β)) (k : String) :
    (alookup d k).isSome ↔ k ∈ d.map Prod.fst := by
  induction d with
  | nil => simp
  | cons p rest ih =>
    by_cases h : p.1 = k
    · simp [h]
    · rw [alookup_cons, if_neg h, List.map_cons, List.mem_cons]
      constructor
      · intro hs
        exact Or.inr (ih.mp hs)
      · rintro (h' | h')
        · exact absurd h'.symm h
        · exact ih.mpr h'

lemma alookup_eq_none_iff {β : Type} (d : List (String × β)) (k : String) :
    alookup d k = none ↔ k ∉ d.map Prod.fst := by
  rw [← alookup_isSome_iff, Option.isSome_iff_exists]
  cases alookup d k <;> simp

lemma alookup_dictSetdefault {β : Type} (d : List (String × β)) (k k' : String) (v : β) :
    alookup (dictSetdefault d k v) k' =
      if k' = k then some ((alookup d k).getD v) else alookup d k' := by
  unfold dictSetdefault
  by_cases hs : (alookup d k).isSome
  · rcases Option.isSome_iff_exists.mp hs with ⟨w, hw⟩
    by_cases hk : k' = k
    · simp [hs, hk, hw]
    · simp [hs, hk]
  · have hnone : alookup d k = none := Option.not_isSome_iff_eq_none.mp hs
    rw [if_neg hs, alookup_append]
    by_cases hk : k' = k
    · subst hk
      simp [hnone]
    · cases h : alookup d k' <;> simp [hk, Ne.symm hk, h]

lemma alookup_map_adjust {β : Type} (d : List (String × β)) (k k' : String) (f : β → β) :
    alookup (d.map (fun p => if p.1 = k then (p.1, f p.2) else p)) k' =
      if k' = k then (alookup d k).map f else alookup d k' := by
  induction d with
  | nil => by_cases hk : k' = k <;> simp [hk]
  | cons p rest ih =>
    by_cases hpk : p.1 = k
    · by_cases hpk' : p.1 = k'
      · have hk : k' = k := hpk'.symm.trans hpk
        simp [hpk, hpk', hk]
      · have hk : ¬ k' = k := fun h => hpk' (hpk.trans h.symm)
        have hk2 : ¬ k = k' := fun h => hk h.symm
        simp [hpk, hpk', hk, hk2] at ih ⊢
        exact ih
    · by_cases hpk' : p.1 = k'
      · have hk : ¬ k' = k := fun h => hpk (hpk'.trans h)
        simp [hpk, hpk', hk]
      · simp [hpk, hpk'] at ih ⊢
        exact ih

lemma alookup_dictAppend (d : List (String × List String)) (k k' x : String) :
    alookup (dictAppend d k x) k' =
      if k' = k then (alookup d k).map (fun v => v ++ [x]) else alookup d k' :=
  alookup_map_adjust d k k' (fun v => v ++ [x])

lemma alookup_dictSet {β : Type} (d : List (String × β)) (k k' : String) (v : β) :
    alookup (dictSet d k v) k' = if k' = k then some v else alookup d k' := by
  unfold dictSet
  by_cases hs : (alookup d k).isSome
  · rcases Option.isSome_iff_exists.mp hs with ⟨w, hw⟩
    rw [if_pos hs, alookup_map_adjust d k k' (fun _ => v), hw]
    rfl
  · have hnone : alookup d k = none := Option.not_isSome_iff_eq_none.mp hs
    rw [if_neg hs, alookup_append]
    by_cases hk : k' = k
    · subst hk
      simp [hnone]
    · cases h : alookup d k' <;> simp [hk, Ne.symm hk, h]

lemma map_fst_dictAppend (d : List (String × List String)) (k x : String) :
    (dictAppend d k x).map Prod.fst = d.map Prod.fst := by
  unfold dictAppend
  rw [List.map_map]
  apply List.map_congr_left
  intro p _
  by_cases h : p.1 = k <;> simp [h]

lemma map_fst_dictSetdefault_of_none {β : Type} (d : List (String × β)) (k : String) (v : β)
    (h : alookup d k = none) :
    (dictSetdefault d k v).map Prod.fst = d.map Prod.fst ++ [k] := by
  unfold dictSetdefault
  simp [h]

lemma dictSetdefault_of_some {β : Type} (d : List (String × β)) (k : String) (v : β)
    (h : (alookup d k).isSome) : dictSetdefault d k v = d := by
  unfold dictSetdefault
  simp [h]

/-! ### `parse_apkindex` (src/main.py lines 94-128) -/

/-- The accumulator `current`: the last `P:`/`V:`/`D:` values of the block. -/
structure ApkCur where
  P : Option String
  V : Option String
  D : Option String

/-- `dict name -> dict version -> list of direct dependency names`. -/
abbrev ApkDb := List (String × List (String × List String))

/-- `token.split("<")[0].split(">")[0].split("=")[0]`. -/
def apkTrunc (token : List Char) : List Char :=
  ((token.takeWhile (fun c => decide (c ≠ '<'))).takeWhile
      (fun c => decide (c ≠ '>'))).takeWhile (fun c => decide (c ≠ '='))

/-- The dependency-token loop of `flush`: replace commas by spaces, split on
whitespace, drop `so:` tokens, strip version constraints, drop empties. -/
def parseDeps (depsLine : List Char) : List String :=
  if depsLine = [] then []
  else
    (pySplitWs (depsLine.map (fun c => if c = ',' then ' ' else c))).filterMap
      (fun token =>
        if listStartsWith token ['s', 'o', ':'] then none
        else
          let dep := pyStrip (apkTrunc token)
          if dep = [] then none else some (String.mk dep))

/-- `db.setdefault(name, {}).setdefault(ver, deps)`: both levels keep an
existing entry and only insert when absent. -/
def dbInsert (db : ApkDb) (name ver : String) (deps : List String) : ApkDb :=
  match alookup db name with
  | none => db ++ [(name, [(ver, deps)])]
  | some versions =>
    match alookup versions ver with
    | some _ => db
    | none => dictSet db name (versions ++ [(ver, deps)])

/-- `flush()`: register the block when both `P` and `V` were seen. -/
def flushDb (db : ApkDb) (cur : ApkCur) : ApkDb :=
  match cur.P, cur.V with
  | some name, some ver => dbInsert db name ver (parseDeps (cur.D.getD "").toList)
  | _, _ => db

/-- `current[key] = val` for `key in ("P","V","D")`; other keys ignored. -/
def apkSetKey (cur : ApkCur) (key val : List Char) : ApkCur :=
  if key = ['P'] then { cur with P := some (String.mk val) }
  else if key = ['V'] then { cur with V := some (String.mk val) }
  else if key = ['D'] then { cur with D := some (String.mk val) }
  else cur

/-- One iteration of the `for line in text.splitlines()` loop. -/
def apkLineStep (st : ApkDb × ApkCur) (line : List Char) : ApkDb × ApkCur :=
  if pyStrip line = [] then (flushDb st.1 st.2, ⟨none, none, none⟩)
  else if ':' ∈ line then
    let key := pyStrip (line.takeWhile (fun c => decide (c ≠ ':')))
    let val := pyStrip ((line.dropWhile (fun c => decide (c ≠ ':'))).drop 1)
    (st.1, apkSetKey st.2 key val)
  else st

/-- `parse_apkindex(text)`. -/
def parse_apkindex (text : String) : ApkDb :=
  let st := (pySplitlines text.toList).foldl apkLineStep ([], ⟨none, none, none⟩)
  flushDb st.1 st.2

/-! ### `get_direct_deps_real` (src/main.py lines 130-136) -/

/-- The two `KeyError` conditions of root resolution; `versionNotFound`
carries the package, the expected version and the full list of available
versions, as the raised message does. -/
inductive DepErr where
  | packageNotFound : String → DepErr
  | versionNotFound : String → String → List String → DepErr
deriving DecidableEq

/-- `get_direct_deps_real(apkindex_db, pkg, version)`. -/
def get_direct_deps_real (db : ApkDb) (pkg version : String) :
    Except DepErr (List String) :=
  let versions := (alookup db pkg).getD []
  if versions = [] then .error (.packageNotFound pkg)
  else
    match alookup versions version with
    | none => .error (.versionNotFound pkg version (versions.map Prod.fst))
    | some deps => .ok deps

/-! ### `read_test_graph` (src/main.py lines 140-154) -/

/-- `[d.strip() for d in rest.split(",") if d.strip()] if rest.strip() else []`. -/
def tgParseDeps (rest : List Char) : List String :=
  if pyStrip rest = [] then []
  else
    (pySplitComma rest).filterMap
      (fun d => let s := pyStrip d; if s = [] then none else some (String.mk s))

/-- One iteration of the `for raw in f` loop of `read_test_graph`. -/
def tgStep (graph : List (String × List String)) (raw : String) :
    List (String × List String) :=
  let line := pyStrip raw.toList
  if line = [] then graph
  else if line.head? = some '#' then graph
  else if ':' ∉ line then dictSetdefault graph (String.mk line) []
  else
    let node := pyStrip (line.takeWhile (fun c => decide (c ≠ ':')))
    let rest := (line.dropWhile (fun c => decide (c ≠ ':'))).drop 1
    dictSet graph (String.mk node) (tgParseDeps rest)

/-- `read_test_graph`, over the already-read lines of the file. -/
def read_test_graph (lines : List String) : List (String × List String) :=
  lines.foldl tgStep []

/-! ### `build_graph_iterative_dfs` (src/main.py lines 158-185) -/

/-- The neighbour-lookup capability: `neighbors_func`, which may raise
`KeyError` (modelled as `Except.error`). -/
abbrev NeighborsFn := String → Except String (List String)

/-- `try: neigh = neighbors_func(node) ... except KeyError: neigh = []`. -/
def neighListOf (nf : NeighborsFn) (n : String) : List String :=
  match nf n with
  | .ok l => l
  | .error _ => []

/-- The traversal state: `adj`, `visited`, `in_stack`, `order` and the
explicit work `stack` of `(node, depth, state)` entries, the list head
being the top of the Python stack (`state`: `false` = pre, `true` = post). -/
structure DfsState where
  adj : List (String × List String)
  visited : List String
  inStack : List String
  order : List String
  stack : List (String × Nat × Bool)

/-- The body of `for nb in neigh`: `adj[node].append(nb)` and push
`(nb, depth + 1, 0)` when `nb` is not visited. -/
def dfsExpandStep (node : String) (depth : Nat) (visited : List String)
    (acc : List (String × List String) × List (String × Nat × Bool)) (nb : String) :
    List (String × List String) × List (String × Nat × Bool) :=
  (dictAppend acc.1 node nb,
   if nb ∈ visited then acc.2 else (nb, depth + 1, false) :: acc.2)

/-- One iteration of the `while stack` loop. -/
def dfsStep (md : Nat) (nf : NeighborsFn) (s : DfsState) : DfsState :=
  match s.stack with
  | [] => s
  | (node, depth, isPost) :: rest =>
    if isPost then
      { s with stack := rest,
               inStack := s.inStack.filter (fun x => decide (x ≠ node)),
               visited := s.visited.insert node }
    else if node ∈ s.visited ∨ node ∈ s.inStack then
      { s with stack := rest }
    else
      let neigh := if depth < md then neighListOf nf node else []
      let res := neigh.foldl (dfsExpandStep node depth s.visited)
        (dictSetdefault s.adj node [], (node, depth, true) :: rest)
      { adj := res.1, visited := s.visited, inStack := s.inStack.insert node,
        order := s.order ++ [node], stack := res.2 }

/-- Run the loop for at most `fuel` iterations, stopping on an empty stack. -/
def dfsRun (md : Nat) (nf : NeighborsFn) : Nat → DfsState → DfsState
  | 0, s => s
  | Nat.succ fuel, s =>
    if s.stack.isEmpty then s else dfsRun md nf fuel (dfsStep md nf s)

/-- The state before the first iteration: `stack = [(start_pkg, 0, 0)]`. -/
def initState (start : String) : DfsState :=
  { adj := [], visited := [], inStack := [], order := [], stack := [(start, 0, false)] }

/-- One widening step of the reachable ball, used only to size the fuel. -/
def ballStep (nf : NeighborsFn) (b : List String) : List String :=
  (b ++ (b.map (neighListOf nf)).flatten).dedup

/-- Fuel bounding the iteration count: every node the loop can open lies in
the radius-`md` ball around `start`, each opened node accounts for one pre
pop, one post pop and at most `|neigh|` skip pops. -/
def dfsFuel (start : String) (md : Nat) (nf : NeighborsFn) : Nat :=
  1 + (((ballStep nf)^[md] [start]).map (fun n => 1 + (neighListOf nf n).length)).sum

/-- The run of `build_graph_iterative_dfs` including its final state. -/
def dfsFinal (start : String) (md : Nat) (nf : NeighborsFn) : DfsState :=
  dfsRun md nf (dfsFuel start md nf) (initState start)

/-- `build_graph_iterative_dfs(start_pkg, max_depth, neighbors_func)`:
the returned `(adj, order)` pair. -/
def build_graph_iterative_dfs (start : String) (md : Nat) (nf : NeighborsFn) :
    List (String × List String) × List String :=
  ((dfsFinal start md nf).adj, (dfsFinal start md nf).order)

/-! ### `make_filtered_neighbors` (src/main.py lines 187-192) and the
test-mode neighbour lookup (line 329) -/

/-- `make_filtered_neighbors(base_neighbors, skip_substring)`. -/
def make_filtered_neighbors (base : NeighborsFn) (skip : String) : NeighborsFn :=
  if skip = "" then base
  else fun node =>
    match base node with
    | .ok l => .ok (l.filter (fun nb => !(strContains nb skip)))
    | .error e => .error e

/-- `lambda n: graph.get(n, [])` — the test-mode neighbour lookup. -/
def test_graph_neighbors (graph : List (String × List String)) : NeighborsFn :=
  fun n => .ok ((alookup graph n).getD [])

/-! ### The inversion step of `stage4_reverse_dependencies`
(src/main.py lines 358-366) -/

/-- The body of `for d in deps`: `rev.setdefault(d, [])` and append `src`
when not already present. -/
def revInner (src : String) (rev : List (String × List String)) (d : String) :
    List (String × List String) :=
  let rev2 := dictSetdefault rev d []
  if src ∈ (alookup rev2 d).getD [] then rev2 else dictAppend rev2 d src

/-- The reverse mapping built by `stage4_reverse_dependencies` before the
second traversal. -/
def stage4_invert (forward : List (String × List String)) :
    List (String × List String) :=
  forward.foldl (fun rev p => p.2.foldl (revInner p.1) (dictSetdefault rev p.1 [])) []

instance {ε α : Type} [DecidableEq ε] [DecidableEq α] : DecidableEq (Except ε α)
  | .ok a, .ok b =>
    if h : a = b then .isTrue (by rw [h]) else .isFalse (by simp [h])
  | .ok _, .error _ => .isFalse (by simp)
  | .error _, .ok _ => .isFalse (by simp)
  | .error a, .error b =>
    if h : a = b then .isTrue (by rw [h]) else .isFalse (by simp [h])

/-! ### General lemmas about the DFS loop -/

lemma dfsRun_nil {md : Nat} {nf : NeighborsFn} {s : DfsState} (fuel : Nat)
    (h : s.stack = []) : dfsRun md nf fuel s = s := by
  cases fuel with
  | zero => rfl
  | succ n => simp [dfsRun, h]

lemma dfsRun_cons {md : Nat} {nf : NeighborsFn} {s : DfsState} (fuel : Nat)
    (h : s.stack ≠ []) :
    dfsRun md nf (fuel + 1) s = dfsRun md nf fuel (dfsStep md nf s) := by
  simp [dfsRun, h]

lemma dfsExpand_fst (node : String) (depth : Nat) (visited : List String)
    (neigh : List String) (a : List (String × List String))
    (st : List (String × Nat × Bool)) :
    (neigh.foldl (dfsExpandStep node depth visited) (a, st)).1 =
      neigh.foldl (fun d nb => dictAppend d node nb) a := by
  induction neigh generalizing a st with
  | nil => rfl
  | cons nb rest ih => simp [List.foldl_cons, dfsExpandStep, ih]

lemma dfsExpand_snd (node : String) (depth : Nat) (visited : List String)
    (neigh : List String) (a : List (String × List String))
    (st : List (String × Nat × Bool)) :
    (neigh.foldl (dfsExpandStep node depth visited) (a, st)).2 =
      ((neigh.filter (fun nb => decide (nb ∉ visited))).map
        (fun nb => (nb, depth + 1, false))).reverse ++ st := by
  induction neigh generalizing a st with
  | nil => rfl
  | cons nb rest ih =>
    by_cases hv : nb ∈ visited
    · simp [List.foldl_cons, dfsExpandStep, hv, ih]
    · simp [List.foldl_cons, dfsExpandStep, hv, ih]

lemma alookup_foldl_dictAppend (neigh : List String)
    (a : List (String × List String)) (node k : String) :
    alookup (neigh.foldl (fun d nb => dictAppend d node nb) a) k =
      if k = node then (alookup a k).map (fun v => v ++ neigh) else alookup a k := by
  induction neigh generalizing a with
  | nil =>
    by_cases hk : k = node
    · subst hk
      cases h : alookup a k <;> simp [h]
    · simp [hk]
  | cons nb rest ih =>
    rw [List.foldl_cons, ih, alookup_dictAppend]
    by_cases hk : k = node
    · subst hk
      cases h : alookup a k <;> simp [h]
    · simp [hk]

lemma map_fst_foldl_dictAppend (neigh : List String)
    (a : List (String × List String)) (node : String) :
    (neigh.foldl (fun d nb => dictAppend d node nb) a).map Prod.fst =
      a.map Prod.fst := by
  induction neigh generalizing a with
  | nil => rfl
  | cons nb rest ih => rw [List.foldl_cons, ih, map_fst_dictAppend]

/-- Invariant behind C2: the adjacency keys are, in order, exactly the
traversal order; the order has no duplicates; everything ordered is open or
closed. -/
def InvA (s : DfsState) : Prop :=
  s.adj.map Prod.fst = s.order ∧ s.order.Nodup ∧
    ∀ x ∈ s.order, x ∈ s.visited ∨ x ∈ s.inStack

lemma invA_step (md : Nat) (nf : NeighborsFn) (s : DfsState) (h : InvA s) :
    InvA (dfsStep md nf s) := by
  obtain ⟨h1, h2, h3⟩ := h
  cases hstk : s.stack with
  | nil =>
    have hstep : dfsStep md nf s = s := by
      simp [dfsStep, hstk]
    rw [hstep]
    exact ⟨h1, h2, h3⟩
  | cons e rest =>
    obtain ⟨node, depth, isPost⟩ := e
    cases isPost with
    | true =>
      have hstep : dfsStep md nf s =
          { s with stack := rest,
                   inStack := s.inStack.filter (fun x => decide (x ≠ node)),
                   visited := s.visited.insert node } := by
        simp [dfsStep, hstk]
      rw [hstep]
      refine ⟨h1, h2, ?_⟩
      intro x hx
      rcases h3 x hx with hv | hi
      · exact Or.inl (List.mem_insert_iff.mpr (Or.inr hv))
      · by_cases hxn : x = node
        · exact Or.inl (List.mem_insert_iff.mpr (Or.inl hxn))
        · exact Or.inr (List.mem_filter.mpr ⟨hi, by simp [hxn]⟩)
    | false =>
      by_cases hskip : node ∈ s.visited ∨ node ∈ s.inStack
      · have hstep : dfsStep md nf s = { s with stack := rest } := by
          simp [dfsStep, hstk, hskip]
        rw [hstep]
        exact ⟨h1, h2, h3⟩
      · have hnode_order : node ∉ s.order := fun hmem => hskip (h3 node hmem)
        have hnode_keys : alookup s.adj node = none := by
          rw [alookup_eq_none_iff, h1]
          exact hnode_order
        have hstep : dfsStep md nf s =
            { adj := ((if depth < md then neighListOf nf node else []).foldl
                (dfsExpandStep node depth s.visited)
                (dictSetdefault s.adj node [], (node, depth, true) :: rest)).1,
              visited := s.visited, inStack := s.inStack.insert node,
              order := s.order ++ [node],
              stack := ((if depth < md then neighListOf nf node else []).foldl
                (dfsExpandStep node depth s.visited)
                (dictSetdefault s.adj node [], (node, depth, true) :: rest)).2 } := by
          simp [dfsStep, hstk, hskip]
        rw [hstep]
        refine ⟨?_, ?_, ?_⟩
        · show (_ : List (String × List String)).map Prod.fst = s.order ++ [node]
          rw [dfsExpand_fst, map_fst_foldl_dictAppend,
            map_fst_dictSetdefault_of_none _ _ _ hnode_keys, h1]
        · show (s.order ++ [node]).Nodup
          rw [List.nodup_append]
          exact ⟨h2, List.nodup_singleton _, by simp [hnode_order]⟩
        · intro x hx
          rcases List.mem_append.mp hx with hx' | hx'
          · rcases h3 x hx' with hv | hi
            · exact Or.inl hv
            · exact Or.inr (List.mem_insert_iff.mpr (Or.inr hi))
          · have hxn : x = node := by simpa using hx'
            exact Or.inr (List.mem_insert_iff.mpr (Or.inl hxn))

lemma invA_run (md : Nat) (nf : NeighborsFn) (fuel : Nat) :
    ∀ s : DfsState, InvA s → InvA (dfsRun md nf fuel s) := by
  induction fuel with
  | zero => intro s h; exact h
  | succ n ih =>
    intro s h
    rw [dfsRun]
    by_cases he : s.stack.isEmpty
    · simpa [he] using h
    · simpa [he] using ih _ (invA_step md nf s h)

lemma invA_init (start : String) : InvA (initState start) := by
  refine ⟨rfl, List.nodup_nil, ?_⟩
  intro x hx
  simp [initState] at hx

lemma invA_final (start : String) (md : Nat) (nf : NeighborsFn) :
    InvA (dfsFinal start md nf) :=
  invA_run md nf _ _ (invA_init start)

/-- C2 (confirmed): for every traversal run — any start node, any depth
bound, any neighbour-lookup function — the returned traversal order has no
duplicate name, its length equals the number of keys of the returned
adjacency map, and the set of names in the order equals the adjacency map's
key set (indeed the keys, in insertion order, are exactly the order). -/
theorem traversal_order_matches_adj_keys (start : String) (md : Nat) (nf : NeighborsFn) :
    (build_graph_iterative_dfs start md nf).2.Nodup ∧
    (build_graph_iterative_dfs start md nf).2.length =
      (build_graph_iterative_dfs start md nf).1.length ∧
    ∀ x, x ∈ (build_graph_iterative_dfs start md nf).2 ↔
      x ∈ (build_graph_iterative_dfs start md nf).1.map Prod.fst := by
  obtain ⟨h1, h2, _⟩ := invA_final start md nf
  refine ⟨h2, ?_, ?_⟩
  · show (dfsFinal start md nf).order.length = (dfsFinal start md nf).adj.length
    rw [← h1, List.length_map]
  · intro x
    show x ∈ (dfsFinal start md nf).order ↔ x ∈ (dfsFinal start md nf).adj.map Prod.fst
    rw [h1]

/-- C1 counterexample: with `maxDepth = 0` the neighbour lookup is never
queried, so the recorded list for the start node is `[]`, not the raw
neighbour list — the graph `A: B` at depth 0 yields `{A: []}`, which differs
from `{A: [B]} = {start: neighborsOf(start)}`. -/
theorem maxdepth_zero_raw_list_cex :
    (build_graph_iterative_dfs "A" 0 (test_graph_neighbors (read_test_graph ["A:B"]))).1
      = [("A", [])] ∧
    neighListOf (test_graph_neighbors (read_test_graph ["A:B"])) "A" = ["B"] ∧
    ([("A", ([] : List String))] : List (String × List String)) ≠ [("A", ["B"])] := by
  decide

/-- C1 amended: for every start node and every neighbour-lookup function,
`maxDepth = 0` returns the adjacency map `{start: []}` — the single key
`start` mapped to the empty list, the lookup never being consulted — and the
traversal order `[start]`. -/
theorem maxdepth_zero_adj (start : String) (nf : NeighborsFn) :
    build_graph_iterative_dfs start 0 nf = ([(start, [])], [start]) := by
  have hfuel : dfsFuel start 0 nf = (neighListOf nf start).length + 2 := by
    simp [dfsFuel]
    omega
  have h1 : dfsStep 0 nf (initState start) =
      ⟨[(start, [])], [], [start], [start], [(start, 0, true)]⟩ := by
    simp [dfsStep, initState, dictSetdefault, List.insert]
  have h2 : dfsStep 0 nf ⟨[(start, [])], [], [start], [start], [(start, 0, true)]⟩ =
      ⟨[(start, [])], [start], [], [start], []⟩ := by
    simp [dfsStep, List.insert, List.filter]
  have hrun : dfsFinal start 0 nf = ⟨[(start, [])], [start], [], [start], []⟩ := by
    rw [dfsFinal, hfuel]
    show dfsRun 0 nf ((neighListOf nf start).length + 1 + 1) (initState start) = _
    rw [dfsRun_cons _ (by simp [initState]), h1, dfsRun_cons _ (by simp), h2,
      dfsRun_nil _ rfl]
  rw [build_graph_iterative_dfs, hrun]

/-- The self-loop graph `{A: [A]}`, looked up the way the test mode does. -/
def selfLoopNf : NeighborsFn := test_graph_neighbors (read_test_graph ["A:A"])

/-- C3 counterexample: at `maxDepth = 0` the traversal of the self-loop
graph records `A ↦ []` — there is no adjacency entry for `A` containing
`"A"`, contradicting the claim's "for every maxDepth ≥ 0". -/
theorem self_loop_depth_zero_cex :
    ¬ ∃ l, alookup (build_graph_iterative_dfs "A" 0 selfLoopNf).1 "A" = some l ∧
      "A" ∈ l := by
  rintro ⟨l, hl, hm⟩
  have h : alookup (build_graph_iterative_dfs "A" 0 selfLoopNf).1 "A" =
      some ([] : List String) := by decide
  rw [h] at hl
  cases hl
  simp at hm

/-- C3 amended: traversing the self-loop graph `{A: [A]}` terminates for
every `maxDepth ≥ 0` (the final work stack is empty within the computed
fuel), `A` is visited and expanded exactly once (the order is `["A"]`), and
the adjacency entry for `A` contains `"A"` whenever `maxDepth ≥ 1`; at
`maxDepth = 0` the entry is `[]` because the neighbour list is not queried. -/
theorem self_loop_terminates (md : Nat) :
    (dfsFinal "A" md selfLoopNf).stack = [] ∧
    build_graph_iterative_dfs "A" md selfLoopNf =
      ([("A", if 0 < md then ["A"] else [])], ["A"]) := by
  cases md with
  | zero =>
    refine ⟨by decide, ?_⟩
    rw [maxdepth_zero_adj "A" selfLoopNf]
    simp
  | succ k =>
    have hfuel : dfsFuel "A" (k + 1) selfLoopNf = 3 := by
      rw [dfsFuel, Function.iterate_fixed (by decide : ballStep selfLoopNf ["A"] = ["A"])]
      decide
    have hrun : dfsRun (k + 1) selfLoopNf 3 (initState "A") =
        ⟨[("A", ["A"])], ["A"], [], ["A"], []⟩ := by
      have hs1 : dfsStep (k + 1) selfLoopNf (initState "A") =
          ⟨[("A", ["A"])], [], ["A"], ["A"], [("A", 1, false), ("A", 0, true)]⟩ := by
        have hlt : 0 < k + 1 := Nat.succ_pos k
        simp [dfsStep, initState, hlt, dfsExpandStep, dictSetdefault, dictAppend,
          List.insert]
        decide
      have hs2 : dfsStep (k + 1) selfLoopNf
          ⟨[("A", ["A"])], [], ["A"], ["A"], [("A", 1, false), ("A", 0, true)]⟩ =
          ⟨[("A", ["A"])], [], ["A"], ["A"], [("A", 0, true)]⟩ := by
        simp [dfsStep]
      have hs3 : dfsStep (k + 1) selfLoopNf
          ⟨[("A", ["A"])], [], ["A"], ["A"], [("A", 0, true)]⟩ =
          ⟨[("A", ["A"])], ["A"], [], ["A"], []⟩ := by
        simp [dfsStep, List.insert, List.filter]
      show dfsRun (k + 1) selfLoopNf (1 + 1 + 1) (initState "A") = _
      rw [dfsRun_cons _ (by simp [initState]), hs1, dfsRun_cons _ (by simp), hs2,
        dfsRun_cons _ (by simp), hs3, dfsRun_nil _ rfl]
    have hfin : dfsFinal "A" (k + 1) selfLoopNf =
        ⟨[("A", ["A"])], ["A"], [], ["A"], []⟩ := by
      rw [dfsFinal, hfuel, hrun]
    refine ⟨by rw [hfin], ?_⟩
    rw [build_graph_iterative_dfs, hfin]
    simp [Nat.succ_pos]

/-- Invariant behind C7: every recorded adjacency value only holds names the
(`KeyError`-absorbing) neighbour lookup actually returned for that key. -/
def InvB (nf : NeighborsFn) (s : DfsState) : Prop :=
  ∀ k v, alookup s.adj k = some v → ∀ x ∈ v, x ∈ neighListOf nf k

lemma invB_step (md : Nat) (nf : NeighborsFn) (s : DfsState) (h : InvB nf s) :
    InvB nf (dfsStep md nf s) := by
  cases hstk : s.stack with
  | nil =>
    have hstep : dfsStep md nf s = s := by
      simp [dfsStep, hstk]
    rw [hstep]
    exact h
  | cons e rest =>
    obtain ⟨node, depth, isPost⟩ := e
    cases isPost with
    | true =>
      have hstep : dfsStep md nf s =
          { s with stack := rest,
                   inStack := s.inStack.filter (fun x => decide (x ≠ node)),
                   visited := s.visited.insert node } := by
        simp [dfsStep, hstk]
      rw [hstep]
      exact h
    | false =>
      by_cases hskip : node ∈ s.visited ∨ node ∈ s.inStack
      · have hstep : dfsStep md nf s = { s with stack := rest } := by
          simp [dfsStep, hstk, hskip]
        rw [hstep]
        exact h
      · have hstep : dfsStep md nf s =
            { adj := ((if depth < md then neighListOf nf node else []).foldl
                (dfsExpandStep node depth s.visited)
                (dictSetdefault s.adj node [], (node, depth, true) :: rest)).1,
              visited := s.visited, inStack := s.inStack.insert node,
              order := s.order ++ [node],
              stack := ((if depth < md then neighListOf nf node else []).foldl
                (dfsExpandStep node depth s.visited)
                (dictSetdefault s.adj node [], (node, depth, true) :: rest)).2 } := by
          simp [dfsStep, hstk, hskip]
        rw [hstep]
        intro k v hv x hx
        rw [dfsExpand_fst, alookup_foldl_dictAppend, alookup_dictSetdefault] at hv
        by_cases hk : k = node
        · rw [if_pos hk, if_pos hk] at hv
          cases hv
          rcases List.mem_append.mp hx with hx' | hx'
          · subst hk
            cases hold : alookup s.adj k with
            | none => rw [hold] at hx'; simp at hx'
            | some v0 =>
              rw [hold] at hx'
              exact h k v0 hold x hx'
          · subst hk
            by_cases hd : depth < md
            · rw [if_pos hd] at hx'
              exact hx'
            · rw [if_neg hd] at hx'
              simp at hx'
        · rw [if_neg hk, if_neg hk] at hv
          exact h k v hv x hx

lemma invB_run (md : Nat) (nf : NeighborsFn) (fuel : Nat) :
    ∀ s : DfsState, InvB nf s → InvB nf (dfsRun md nf fuel s) := by
  induction fuel with
  | zero => intro s h; exact h
  | succ n ih =>
    intro s h
    rw [dfsRun]
    by_cases he : s.stack.isEmpty
    · simpa [he] using h
    · simpa [he] using ih _ (invB_step md nf s h)

lemma invB_final (start : String) (md : Nat) (nf : NeighborsFn) :
    InvB nf (dfsFinal start md nf) := by
  apply invB_run
  intro k v hv
  simp [initState] at hv

/-- C7 (confirmed): a node whose neighbour lookup raises `KeyError` is
degraded to a leaf — any adjacency entry recorded for it is the empty list,
and in particular if the node was reached (it appears in the traversal
order) it is still recorded in the adjacency map, mapped to `[]`; the run
itself completes and returns instead of propagating the failure. -/
theorem keyerror_node_is_leaf (start : String) (md : Nat) (nf : NeighborsFn)
    (u : String) (e : String) (herr : nf u = .error e) :
    (∀ v, alookup (build_graph_iterative_dfs start md nf).1 u = some v → v = []) ∧
    (u ∈ (build_graph_iterative_dfs start md nf).2 →
      alookup (build_graph_iterative_dfs start md nf).1 u = some []) := by
  have hnil : neighListOf nf u = [] := by
    rw [neighListOf, herr]
  have hB := invB_final start md nf
  have hval : ∀ v, alookup (dfsFinal start md nf).adj u = some v → v = [] := by
    intro v hv
    have := hB u v hv
    rw [hnil] at this
    exact List.eq_nil_iff_forall_not_mem.mpr (fun x hx => by simpa using this x hx)
  refine ⟨hval, ?_⟩
  intro hord
  obtain ⟨h1, _, _⟩ := invA_final start md nf
  have hkey : (alookup (dfsFinal start md nf).adj u).isSome := by
    rw [alookup_isSome_iff, h1]
    exact hord
  rcases Option.isSome_iff_exists.mp hkey with ⟨v, hv⟩
  show alookup (dfsFinal start md nf).adj u = some []
  rw [hv, hval v hv]

/-- C7 witness: in the graph where only `A` resolves (to `[B]`) and `B`
raises `KeyError`, the run still records `B`, as a leaf with `[]`. -/
theorem keyerror_node_is_leaf_witness :
    alookup (build_graph_iterative_dfs "A" 2
      (fun n => if n = "A" then .ok ["B"] else .error "KeyError")).1 "B" =
      some [] :=
  (keyerror_node_is_leaf "A" 2
      (fun n => if n = "A" then .ok ["B"] else .error "KeyError")
      "B" "KeyError" (by decide)).2 (by decide)

lemma alookup_of_mem_nodup {β : Type} (d : List (String × β)) (p : String × β)
    (hnd : (d.map Prod.fst).Nodup) (hp : p ∈ d) : alookup d p.1 = some p.2 := by
  induction d with
  | nil => simp at hp
  | cons q rest ih =>
    rcases List.mem_cons.mp hp with hq | hq
    · subst hq
      simp
    · have hne : q.1 ≠ p.1 := by
        intro hcontra
        have : p.1 ∈ rest.map Prod.fst := List.mem_map_of_mem Prod.fst hq
        rw [List.map_cons] at hnd
        exact (List.nodup_cons.mp hnd).1 (hcontra ▸ this)
      rw [alookup_cons, if_neg hne]
      exact ih (List.nodup_cons.mp (by rwa [List.map_cons] at hnd)).2 hq

/-- Invariant behind C8: for a predicate `P` holding of every name any
neighbour list can mention, every name on the work stack or in the order
satisfies `P` unless it is the start node itself. -/
def InvC (P : String → Prop) (start : String) (s : DfsState) : Prop :=
  (∀ e ∈ s.stack, P e.1 ∨ e.1 = start) ∧ (∀ x ∈ s.order, P x ∨ x = start)

lemma invC_step (P : String → Prop) (start : String) (md : Nat) (nf : NeighborsFn)
    (hnf : ∀ n x, x ∈ neighListOf nf n → P x) (s : DfsState) (h : InvC P start s) :
    InvC P start (dfsStep md nf s) := by
  obtain ⟨hstack, horder⟩ := h
  cases hstk : s.stack with
  | nil =>
    have hstep : dfsStep md nf s = s := by
      simp [dfsStep, hstk]
    rw [hstep]
    exact ⟨hstack, horder⟩
  | cons e rest =>
    obtain ⟨node, depth, isPost⟩ := e
    have hrest : ∀ e ∈ rest, P e.1 ∨ e.1 = start := fun e he =>
      hstack e (by rw [hstk]; exact List.mem_cons_of_mem _ he)
    have hnode : P node ∨ node = start := by
      have := hstack (node, depth, isPost) (by rw [hstk]; exact List.mem_cons_self _ _)
      simpa using this
    cases isPost with
    | true =>
      have hstep : dfsStep md nf s =
          { s with stack := rest,
                   inStack := s.inStack.filter (fun x => decide (x ≠ node)),
                   visited := s.visited.insert node } := by
        simp [dfsStep, hstk]
      rw [hstep]
      exact ⟨hrest, horder⟩
    | false =>
      by_cases hskip : node ∈ s.visited ∨ node ∈ s.inStack
      · have hstep : dfsStep md nf s = { s with stack := rest } := by
          simp [dfsStep, hstk, hskip]
        rw [hstep]
        exact ⟨hrest, horder⟩
      · have hstep : dfsStep md nf s =
            { adj := ((if depth < md then neighListOf nf node else []).foldl
                (dfsExpandStep node depth s.visited)
                (dictSetdefault s.adj node [], (node, depth, true) :: rest)).1,
              visited := s.visited, inStack := s.inStack.insert node,
              order := s.order ++ [node],
              stack := ((if depth < md then neighListOf nf node else []).foldl
                (dfsExpandStep node depth s.visited)
                (dictSetdefault s.adj node [], (node, depth, true) :: rest)).2 } := by
          simp [dfsStep, hstk, hskip]
        rw [hstep]
        constructor
        · intro e he
          rw [dfsExpand_snd] at he
          rcases List.mem_append.mp he with he' | he'
          · rcases List.mem_map.mp (List.mem_reverse.mp he') with ⟨nb, hnb, hee⟩
            have hnbm : nb ∈ neighListOf nf node := by
              by_cases hd : depth < md
              · rw [if_pos hd] at hnb
                exact List.mem_of_mem_filter hnb
              · rw [if_neg hd] at hnb
                simp at hnb
            exact Or.inl (hee ▸ hnf node nb hnbm)
          · rcases List.mem_cons.mp he' with he'' | he''
            · subst he''
              exact hnode
            · exact hrest e he''
        · intro x hx
          rcases List.mem_append.mp hx with hx' | hx'
          · exact horder x hx'
          · have : x = node := by simpa using hx'
            exact this ▸ hnode

lemma invC_run (P : String → Prop) (start : String) (md : Nat) (nf : NeighborsFn)
    (hnf : ∀ n x, x ∈ neighListOf nf n → P x) (fuel : Nat) :
    ∀ s : DfsState, InvC P start s → InvC P start (dfsRun md nf fuel s) := by
  induction fuel with
  | zero => intro s h; exact h
  | succ n ih =>
    intro s h
    rw [dfsRun]
    by_cases he : s.stack.isEmpty
    · simpa [he] using h
    · simpa [he] using ih _ (invC_step P start md nf hnf s h)

lemma invC_final (P : String → Prop) (start : String) (md : Nat) (nf : NeighborsFn)
    (hnf : ∀ n x, x ∈ neighListOf nf n → P x) :
    InvC P start (dfsFinal start md nf) := by
  apply invC_run P start md nf hnf
  constructor
  · intro e he
    simp [initState] at he
    subst he
    exact Or.inr rfl
  · intro x hx
    simp [initState] at hx

lemma make_filtered_neighbors_sound (base : NeighborsFn) (skip : String)
    (hskip : skip ≠ "") (n x : String)
    (hx : x ∈ neighListOf (make_filtered_neighbors base skip) n) :
    strContains x skip = false := by
  rw [make_filtered_neighbors, if_neg hskip] at hx
  rw [neighListOf] at hx
  cases hb : base n with
  | ok l =>
    rw [hb] at hx
    simp only [List.mem_filter] at hx
    simpa using hx.2
  | error e =>
    rw [hb] at hx
    simp at hx

/-- C8 counterexample: the filter only cleans the lists returned by the
lookup; the start node is pushed unconditionally, so a start node that
itself contains the skip substring does appear as a key of the adjacency
map — here `start = "E"` with `skip_substring = "E"`. -/
theorem skip_substring_start_key_cex :
    strContains "E" "E" = true ∧
    "E" ∈ (build_graph_iterative_dfs "E" 1
      (make_filtered_neighbors (test_graph_neighbors (read_test_graph ["E:B"])) "E")).1.map
        Prod.fst := by
  decide

/-- C8 amended: with a non-empty `skip_substring`, every name containing the
substring is removed from every list the wrapped lookup returns, so no
recorded neighbour list mentions such a name and no key of the adjacency
map other than the start node itself contains it (the start node is pushed
before any lookup and is exempt). -/
theorem skip_substring_filtered (base : NeighborsFn) (skip start : String)
    (md : Nat) (hskip : skip ≠ "") :
    (∀ p ∈ (build_graph_iterative_dfs start md
        (make_filtered_neighbors base skip)).1,
      ∀ x ∈ p.2, strContains x skip = false) ∧
    (∀ k ∈ (build_graph_iterative_dfs start md
        (make_filtered_neighbors base skip)).1.map Prod.fst,
      k ≠ start → strContains k skip = false) := by
  have hnf : ∀ n x, x ∈ neighListOf (make_filtered_neighbors base skip) n →
      strContains x skip = false :=
    fun n x hx => make_filtered_neighbors_sound base skip hskip n x hx
  obtain ⟨h1, h2, _⟩ := invA_final start md (make_filtered_neighbors base skip)
  obtain ⟨_, horder⟩ :=
    invC_final (fun x => strContains x skip = false) start md
      (make_filtered_neighbors base skip) hnf
  constructor
  · intro p hp x hx
    have hnd : ((dfsFinal start md (make_filtered_neighbors base skip)).adj.map
        Prod.fst).Nodup := by
      rw [h1]
      exact h2
    have hlk := alookup_of_mem_nodup _ p hnd hp
    exact hnf p.1 x (invB_final start md (make_filtered_neighbors base skip) p.1 p.2 hlk x hx)
  · intro k hk hkstart
    have hko : k ∈ (dfsFinal start md (make_filtered_neighbors base skip)).order := by
      rw [← h1]
      exact hk
    rcases horder k hko with hP | hs
    · exact hP
    · exact absurd hs hkstart

/-- C8 witness: a concrete run of the amended statement on the graph
`A: B, E` with `skip_substring = "E"` and start `A`. -/
theorem skip_substring_filtered_witness :
    (∀ p ∈ (build_graph_iterative_dfs "A" 5
        (make_filtered_neighbors (test_graph_neighbors (read_test_graph ["A:B,E", "B:"])) "E")).1,
      ∀ x ∈ p.2, strContains x "E" = false) ∧
    (∀ k ∈ (build_graph_iterative_dfs "A" 5
        (make_filtered_neighbors (test_graph_neighbors (read_test_graph ["A:B,E", "B:"])) "E")).1.map
          Prod.fst,
      k ≠ "A" → strContains k "E" = false) :=
  skip_substring_filtered (test_graph_neighbors (read_test_graph ["A:B,E", "B:"]))
    "E" "A" 5 (by decide)

/-- C4 counterexample: two blocks completing the same `(a, 1)` pair with
dependency lists `["x"]` then `["y"]` — registration goes through
`setdefault`, so the parser keeps the earlier list `["x"]`, not the later
`["y"]` that the claim's last-wins semantics would require. -/
theorem apkindex_duplicate_block_cex :
    alookup (parse_apkindex "P:a\nV:1\nD:x\n\nP:a\nV:1\nD:y") "a" =
      some [("1", ["x"])] ∧ (["x"] : List String) ≠ ["y"] := by
  decide

/-- C4 amended: when the same `(name, version)` pair is completed by two
blocks, `parse_apkindex` keeps the dependency list of the earlier block —
registration uses `setdefault` at both levels, so completing a block whose
`(name, version)` pair is already registered leaves the database unchanged
(first-wins), as the duplicate-block text above demonstrates. -/
theorem apkindex_duplicate_first_wins :
    (∀ (db : ApkDb) (name ver : String) (deps : List String)
        (vs : List (String × List String)) (deps0 : List String),
      alookup db name = some vs → alookup vs ver = some deps0 →
        dbInsert db name ver deps = db) ∧
    parse_apkindex "P:a\nV:1\nD:x\n\nP:a\nV:1\nD:y" = [("a", [("1", ["x"])])] := by
  constructor
  · intro db name ver deps vs deps0 hname hver
    simp [dbInsert, hname, hver]
  · decide

/-- C4 witness: inserting `(a, 1) -> ["y"]` into a database already holding
`(a, 1) -> ["x"]` is a no-op. -/
theorem apkindex_duplicate_first_wins_witness :
    dbInsert [("a", [("1", ["x"])])] "a" "1" ["y"] = [("a", [("1", ["x"])])] :=
  apkindex_duplicate_first_wins.1 [("a", [("1", ["x"])])] "a" "1" ["y"]
    [("1", ["x"])] ["x"] (by decide) (by decide)

/-! ### Well-formedness of the parsed index: no name maps to zero versions -/

/-- Every registered name owns at least one version. -/
def DbWF (db : ApkDb) : Prop :=
  ∀ n vs, alookup db n = some vs → vs ≠ []

lemma dbInsert_wf (db : ApkDb) (name ver : String) (deps : List String)
    (h : DbWF db) : DbWF (dbInsert db name ver deps) := by
  cases hname : alookup db name with
  | none =>
    have heq : dbInsert db name ver deps = db ++ [(name, [(ver, deps)])] := by
      simp [dbInsert, hname]
    rw [heq]
    intro n vs hvs
    rw [alookup_append] at hvs
    cases hn : alookup db n with
    | some w =>
      rw [hn] at hvs
      cases hvs
      exact h n _ hn
    | none =>
      rw [hn] at hvs
      by_cases hnn : name = n
      · simp [hnn] at hvs
        rw [← hvs]
        simp
      · simp [hnn] at hvs
  | some versions =>
    cases hver : alookup versions ver with
    | some d0 =>
      have heq : dbInsert db name ver deps = db := by
        simp [dbInsert, hname, hver]
      rw [heq]
      exact h
    | none =>
      have heq : dbInsert db name ver deps =
          dictSet db name (versions ++ [(ver, deps)]) := by
        simp [dbInsert, hname, hver]
      rw [heq]
      intro n vs hvs
      rw [alookup_dictSet] at hvs
      by_cases hnn : n = name
      · rw [if_pos hnn] at hvs
        cases hvs
        simp
      · rw [if_neg hnn] at hvs
        exact h n vs hvs

lemma flushDb_wf (db : ApkDb) (cur : ApkCur) (h : DbWF db) : DbWF (flushDb db cur) := by
  rw [flushDb]
  cases cur.P with
  | none => exact h
  | some name =>
    cases cur.V with
    | none => exact h
    | some ver => exact dbInsert_wf db name ver _ h

lemma apkLineStep_wf (st : ApkDb × ApkCur) (line : List Char)
    (h : DbWF st.1) : DbWF (apkLineStep st line).1 := by
  rw [apkLineStep]
  by_cases hb : pyStrip line = []
  · simpa [hb] using flushDb_wf st.1 st.2 h
  · by_cases hc : ':' ∈ line
    · simpa [hb, hc] using h
    · simpa [hb, hc] using h

lemma parse_apkindex_wf (text : String) : DbWF (parse_apkindex text) := by
  rw [parse_apkindex]
  apply flushDb_wf
  generalize pySplitlines text.toList = lines
  have hgen : ∀ (ls : List (List Char)) (st : ApkDb × ApkCur), DbWF st.1 →
      DbWF (ls.foldl apkLineStep st).1 := by
    intro ls
    induction ls with
    | nil => intro st h; exact h
    | cons l rest ih =>
      intro st h
      rw [List.foldl_cons]
      exact ih _ (apkLineStep_wf st l h)
  exact hgen lines ([], ⟨none, none, none⟩) (by intro n vs hvs; simp at hvs)

/-- C6 (confirmed): root resolution against a parsed index fails with the
package-not-found error exactly when the root name is absent; fails with the
version-not-found error carrying the full list of available versions when
the name is present but the exact version is not; and returns the recorded
dependency list when both are present. -/
theorem get_direct_deps_real_cases (text : String) (pkg version : String) :
    (alookup (parse_apkindex text) pkg = none →
      get_direct_deps_real (parse_apkindex text) pkg version =
        .error (.packageNotFound pkg)) ∧
    (∀ vs, alookup (parse_apkindex text) pkg = some vs →
      alookup vs version = none →
        get_direct_deps_real (parse_apkindex text) pkg version =
          .error (.versionNotFound pkg version (vs.map Prod.fst))) ∧
    (∀ vs deps, alookup (parse_apkindex text) pkg = some vs →
      alookup vs version = some deps →
        get_direct_deps_real (parse_apkindex text) pkg version = .ok deps) := by
  refine ⟨?_, ?_, ?_⟩
  · intro h
    rw [get_direct_deps_real, h]
    rfl
  · intro vs hvs hver
    have hne : vs ≠ [] := parse_apkindex_wf text pkg vs hvs
    rw [get_direct_deps_real, hvs]
    simp only [Option.getD_some]
    rw [if_neg hne, hver]
  · intro vs deps hvs hver
    have hne : vs ≠ [] := by
      intro hcontra
      rw [hcontra] at hver
      simp at hver
    rw [get_direct_deps_real, hvs]
    simp only [Option.getD_some]
    rw [if_neg hne, hver]

/-- C6 witness: on the two-package index `a/1 -> [b]`, `b/2 -> []`, all
three cases fire at concrete inputs. -/
theorem get_direct_deps_real_cases_witness :
    get_direct_deps_real (parse_apkindex "P:a\nV:1\nD:b\n\nP:b\nV:2") "zzz" "1" =
      .error (.packageNotFound "zzz") ∧
    get_direct_deps_real (parse_apkindex "P:a\nV:1\nD:b\n\nP:b\nV:2") "a" "9" =
      .error (.versionNotFound "a" "9" ["1"]) ∧
    get_direct_deps_real (parse_apkindex "P:a\nV:1\nD:b\n\nP:b\nV:2") "a" "1" =
      .ok ["b"] := by
  refine ⟨?_, ?_, ?_⟩
  · exact (get_direct_deps_real_cases "P:a\nV:1\nD:b\n\nP:b\nV:2" "zzz" "1").1
      (by decide)
  · have h := (get_direct_deps_real_cases "P:a\nV:1\nD:b\n\nP:b\nV:2" "a" "9").2.1
      [("1", ["b"])] (by decide) (by decide)
    exact h
  · exact (get_direct_deps_real_cases "P:a\nV:1\nD:b\n\nP:b\nV:2" "a" "1").2.2
      [("1", ["b"])] ["b"] (by decide) (by decide)

lemma apkTrunc_eq (token : List Char) :
    apkTrunc token =
      token.takeWhile (fun c => decide (c ≠ '<' ∧ c ≠ '>' ∧ c ≠ '=')) := by
  rw [apkTrunc, List.takeWhile_takeWhile, List.takeWhile_takeWhile]
  congr 1
  funext c
  by_cases h1 : c = '<' <;> by_cases h2 : c = '>' <;> by_cases h3 : c = '=' <;>
    simp [h1, h2, h3]

/-- Written after the spec's wording of dependency-token normalization:
split the `D` value on commas and whitespace, drop tokens beginning with
`so:`, truncate every remaining token at the first occurrence of any of
`<`, `>`, `=` (keeping only the prefix), trim whitespace, discard empties,
keeping order and duplicates. -/
def specDepNormalize (depsLine : List Char) : List String :=
  (pySplitWs (depsLine.map (fun c => if c = ',' then ' ' else c))).filterMap
    (fun token =>
      if listStartsWith token ['s', 'o', ':'] then none
      else
        let dep := pyStrip (token.takeWhile
          (fun c => decide (c ≠ '<' ∧ c ≠ '>' ∧ c ≠ '=')))
        if dep = [] then none else some (String.mk dep))

/-- C5 (confirmed): the parser's dependency normalization (sequential
truncation at `<`, then `>`, then `=`) agrees with the spec's description
(truncation at the first occurrence of any of the three) on every `D`
value, and the spec's concrete scenario resolves to exactly `["zlib"]`. -/
theorem dep_token_normalization :
    (∀ depsLine : List Char, parseDeps depsLine = specDepNormalize depsLine) ∧
    get_direct_deps_real
      (parse_apkindex "P:busybox\nV:1.36.0-r0\nD:so:libc.musl-x86_64.so.1 zlib>=1.3")
      "busybox" "1.36.0-r0" = .ok ["zlib"] := by
  constructor
  · intro dl
    by_cases h : dl = []
    · subst h
      rfl
    · rw [parseDeps, if_neg h, specDepNormalize]
      congr 1
      funext token
      rw [apkTrunc_eq]
  · decide

/-- C10 counterexample: after `A:B` a later bare line `A` does not replace
the entry — `read_test_graph ["A:B", "A"]` keeps `A ↦ ["B"]`, while the
claim's last-wins reading requires the bare declaration's empty list. -/
theorem test_graph_bare_line_cex :
    read_test_graph ["A:B", "A"] = [("A", ["B"])] ∧
    (["B"] : List String) ≠ ([] : List String) := by
  decide

/-- C10 amended: processing one more line of the test-graph file acts on
the graph built so far; a later `NODE:DEP1,...` line replaces the node's
dependency list (last-wins), but a bare `NODE` line goes through
`setdefault` and never overwrites — it keeps the existing list, only
inserting `[]` when the node is new. -/
theorem test_graph_last_wins :
    (∀ (ls : List String) (raw : String),
      read_test_graph (ls ++ [raw]) = tgStep (read_test_graph ls) raw) ∧
    (∀ (g : List (String × List String)) (raw : String),
      pyStrip raw.toList ≠ [] → (pyStrip raw.toList).head? ≠ some '#' →
      ':' ∈ pyStrip raw.toList →
        alookup (tgStep g raw)
            (String.mk (pyStrip ((pyStrip raw.toList).takeWhile
              (fun c => decide (c ≠ ':'))))) =
          some (tgParseDeps
            (((pyStrip raw.toList).dropWhile (fun c => decide (c ≠ ':'))).drop 1))) ∧
    (∀ (g : List (String × List String)) (raw : String),
      pyStrip raw.toList ≠ [] → (pyStrip raw.toList).head? ≠ some '#' →
      ':' ∉ pyStrip raw.toList →
        alookup (tgStep g raw) (String.mk (pyStrip raw.toList)) =
          some ((alookup g (String.mk (pyStrip raw.toList))).getD [])) := by
  refine ⟨?_, ?_, ?_⟩
  · intro ls raw
    rw [read_test_graph, read_test_graph, List.foldl_append, List.foldl_cons,
      List.foldl_nil]
  · intro g raw hne hcomment hcolon
    rw [tgStep]
    simp only [hne, hcomment, hcolon, ite_false, ite_true, not_true,
      not_not, if_neg, if_pos]
    rw [alookup_dictSet, if_pos rfl]
  · intro g raw hne hcomment hcolon
    rw [tgStep]
    rw [if_neg hne, if_neg hcomment, if_pos hcolon]
    rw [alookup_dictSetdefault, if_pos rfl]

/-- C10 witness: on a graph already holding `A ↦ ["X"]`, the colon line
`A:B` overwrites to the parsed `["B"]`, while the bare line `A` keeps
`["X"]`. -/
theorem test_graph_last_wins_witness :
    alookup (tgStep [("A", ["X"])] "A:B")
        (String.mk (pyStrip ((pyStrip "A:B".toList).takeWhile
          (fun c => decide (c ≠ ':'))))) =
      some (tgParseDeps
        (((pyStrip "A:B".toList).dropWhile (fun c => decide (c ≠ ':'))).drop 1)) ∧
    alookup (tgStep [("A", ["X"])] "A") (String.mk (pyStrip "A".toList)) =
      some ((alookup [("A", ["X"])] (String.mk (pyStrip "A".toList))).getD []) :=
  ⟨test_graph_last_wins.2.1 [("A", ["X"])] "A:B" (by decide) (by decide) (by decide),
   test_graph_last_wins.2.2 [("A", ["X"])] "A" (by decide) (by decide) (by decide)⟩

/-! ### Lemmas for the reverse-mapping construction -/

/-- `x` is recorded in `rev`'s list for key `k` (absent key reads as `[]`). -/
def revHas (rev : List (String × List String)) (k x : String) : Prop :=
  x ∈ (alookup rev k).getD []

/-- Every value list of `rev` is duplicate-free. -/
def NodupVals (rev : List (String × List String)) : Prop :=
  ∀ k l, alookup rev k = some l → l.Nodup

lemma alookup_revInner (src : String) (rev : List (String × List String)) (d k : String) :
    alookup (revInner src rev d) k =
      if k = d then
        some (if src ∈ (alookup rev d).getD [] then (alookup rev d).getD []
              else (alookup rev d).getD [] ++ [src])
      else alookup rev k := by
  rw [revInner]
  have h2 : alookup (dictSetdefault rev d []) d = some ((alookup rev d).getD []) := by
    rw [alookup_dictSetdefault, if_pos rfl]
  by_cases hmem : src ∈ (alookup (dictSetdefault rev d []) d).getD []
  · have hmem' : src ∈ (alookup rev d).getD [] := by
      rw [h2] at hmem
      simpa using hmem
    rw [if_pos hmem]
    rw [alookup_dictSetdefault]
    by_cases hk : k = d
    · rw [if_pos hk, if_pos hk, if_pos hmem']
    · rw [if_neg hk, if_neg hk]
  · have hmem' : src ∉ (alookup rev d).getD [] := by
      rw [h2] at hmem
      simpa using hmem
    rw [if_neg hmem]
    rw [alookup_dictAppend]
    by_cases hk : k = d
    · subst hk
      rw [if_pos rfl, if_pos rfl, if_neg hmem', h2]
      rfl
    · rw [if_neg hk, if_neg hk, alookup_dictSetdefault, if_neg hk]

lemma revHas_revInner (src : String) (rev : List (String × List String)) (d k x : String) :
    revHas (revInner src rev d) k x ↔ revHas rev k x ∨ (x = src ∧ k = d) := by
  rw [revHas, revHas, alookup_revInner]
  by_cases hk : k = d
  · subst hk
    rw [if_pos rfl]
    by_cases hmem : src ∈ (alookup rev k).getD []
    · rw [if_pos hmem]
      simp only [Option.getD_some]
      constructor
      · exact fun h => Or.inl h
      · rintro (h | ⟨hx, -⟩)
        · exact h
        · exact hx ▸ hmem
    · rw [if_neg hmem]
      simp only [Option.getD_some, List.mem_append, List.mem_singleton]
      constructor
      · rintro (h | h)
        · exact Or.inl h
        · exact Or.inr ⟨h, by trivial⟩
      · rintro (h | ⟨hx, -⟩)
        · exact Or.inl h
        · exact Or.inr hx
  · rw [if_neg hk]
    constructor
    · exact fun h => Or.inl h
    · rintro (h | ⟨-, hkd⟩)
      · exact h
      · exact absurd hkd hk

lemma keys_revInner (src : String) (rev : List (String × List String)) (d k : String) :
    (alookup (revInner src rev d) k).isSome ↔ (alookup rev k).isSome ∨ k = d := by
  rw [alookup_revInner]
  by_cases hk : k = d
  · simp [hk]
  · simp [hk]

lemma nodupVals_revInner (src : String) (rev : List (String × List String)) (d : String)
    (h : NodupVals rev) : NodupVals (revInner src rev d) := by
  intro k l hl
  rw [alookup_revInner] at hl
  by_cases hk : k = d
  · rw [if_pos hk] at hl
    have hv : ((alookup rev d).getD []).Nodup := by
      cases hd : alookup rev d with
      | none => simp
      | some l0 => simpa using h d l0 hd
    by_cases hmem : src ∈ (alookup rev d).getD []
    · rw [if_pos hmem] at hl
      cases hl
      exact hv
    · rw [if_neg hmem] at hl
      cases hl
      rw [List.nodup_append]
      exact ⟨hv, List.nodup_singleton _, by simpa using hmem⟩
  · rw [if_neg hk] at hl
    exact h k l hl

lemma revHas_foldl_revInner (deps : List String) (src : String) (k x : String) :
    ∀ rev, revHas (deps.foldl (revInner src) rev) k x ↔
      revHas rev k x ∨ (x = src ∧ k ∈ deps) := by
  induction deps with
  | nil => intro rev; simp
  | cons d rest ih =>
    intro rev
    rw [List.foldl_cons, ih, revHas_revInner]
    constructor
    · rintro ((h | ⟨hx, hk⟩) | ⟨hx, hk⟩)
      · exact Or.inl h
      · exact Or.inr ⟨hx, hk ▸ List.mem_cons_self _ _⟩
      · exact Or.inr ⟨hx, List.mem_cons_of_mem _ hk⟩
    · rintro (h | ⟨hx, hk⟩)
      · exact Or.inl (Or.inl h)
      · rcases List.mem_cons.mp hk with hk' | hk'
        · exact Or.inl (Or.inr ⟨hx, hk'⟩)
        · exact Or.inr ⟨hx, hk'⟩

lemma keys_foldl_revInner (deps : List String) (src : String) (k : String) :
    ∀ rev, (alookup (deps.foldl (revInner src) rev) k).isSome ↔
      (alookup rev k).isSome ∨ k ∈ deps := by
  induction deps with
  | nil => intro rev; simp
  | cons d rest ih =>
    intro rev
    rw [List.foldl_cons, ih, keys_revInner]
    constructor
    · rintro ((h | h) | h)
      · exact Or.inl h
      · exact Or.inr (h ▸ List.mem_cons_self _ _)
      · exact Or.inr (List.mem_cons_of_mem _ h)
    · rintro (h | h)
      · exact Or.inl (Or.inl h)
      · rcases List.mem_cons.mp h with h' | h'
        · exact Or.inl (Or.inr h')
        · exact Or.inr h'

lemma nodupVals_foldl_revInner (deps : List String) (src : String) :
    ∀ rev, NodupVals rev → NodupVals (deps.foldl (revInner src) rev) := by
  induction deps with
  | nil => intro rev h; exact h
  | cons d rest ih =>
    intro rev h
    rw [List.foldl_cons]
    exact ih _ (nodupVals_revInner src rev d h)

lemma revHas_dictSetdefault_nil (rev : List (String × List String)) (s k x : String) :
    revHas (dictSetdefault rev s []) k x ↔ revHas rev k x := by
  rw [revHas, revHas, alookup_dictSetdefault]
  by_cases hk : k = s
  · subst hk
    simp
  · rw [if_neg hk]

lemma keys_dictSetdefault_nil (rev : List (String × List String)) (s k : String) :
    (alookup (dictSetdefault rev s ([] : List String)) k).isSome ↔
      (alookup rev k).isSome ∨ k = s := by
  rw [alookup_dictSetdefault]
  by_cases hk : k = s
  · simp [hk]
  · simp [hk]

lemma nodupVals_dictSetdefault_nil (rev : List (String × List String)) (s : String)
    (h : NodupVals rev) : NodupVals (dictSetdefault rev s []) := by
  intro k l hl
  rw [alookup_dictSetdefault] at hl
  by_cases hk : k = s
  · rw [if_pos hk] at hl
    cases hl
    cases hd : alookup rev s with
    | none => simp
    | some l0 => simpa [hd] using h s l0 hd
  · rw [if_neg hk] at hl
    exact h k l hl

lemma revHas_stage4_foldl (fwd : List (String × List String)) (k x : String) :
    ∀ rev, revHas (fwd.foldl
        (fun rev p => p.2.foldl (revInner p.1) (dictSetdefault rev p.1 [])) rev) k x ↔
      revHas rev k x ∨ ∃ deps, (x, deps) ∈ fwd ∧ k ∈ deps := by
  induction fwd with
  | nil => intro rev; simp
  | cons p rest ih =>
    intro rev
    rw [List.foldl_cons, ih, revHas_foldl_revInner, revHas_dictSetdefault_nil]
    constructor
    · rintro ((h | ⟨hx, hk⟩) | ⟨deps, hdm, hk⟩)
      · exact Or.inl h
      · refine Or.inr ⟨p.2, ?_, hk⟩
        rw [hx, Prod.mk.eta]
        exact List.mem_cons_self _ _
      · exact Or.inr ⟨deps, List.mem_cons_of_mem _ hdm, hk⟩
    · rintro (h | ⟨deps, hdm, hk⟩)
      · exact Or.inl (Or.inl h)
      · rcases List.mem_cons.mp hdm with hd' | hd'
        · have hx : x = p.1 := congrArg Prod.fst hd'
          have hdeps : deps = p.2 := congrArg Prod.snd hd'
          exact Or.inl (Or.inr ⟨hx, hdeps ▸ hk⟩)
        · exact Or.inr ⟨deps, hd', hk⟩

lemma keys_stage4_foldl (fwd : List (String × List String)) (k : String) :
    ∀ rev, (alookup (fwd.foldl
        (fun rev p => p.2.foldl (revInner p.1) (dictSetdefault rev p.1 [])) rev) k).isSome ↔
      (alookup rev k).isSome ∨ (∃ p ∈ fwd, k = p.1) ∨ ∃ p ∈ fwd, k ∈ p.2 := by
  induction fwd with
  | nil => intro rev; simp
  | cons p rest ih =>
    intro rev
    rw [List.foldl_cons, ih, keys_foldl_revInner, keys_dictSetdefault_nil]
    constructor
    · rintro (((h | h) | h) | h)
      · exact Or.inl h
      · exact Or.inr (Or.inl ⟨p, List.mem_cons_self _ _, h⟩)
      · exact Or.inr (Or.inr ⟨p, List.mem_cons_self _ _, h⟩)
      · rcases h with (⟨q, hq, hk⟩ | ⟨q, hq, hk⟩)
        · exact Or.inr (Or.inl ⟨q, List.mem_cons_of_mem _ hq, hk⟩)
        · exact Or.inr (Or.inr ⟨q, List.mem_cons_of_mem _ hq, hk⟩)
    · rintro (h | (⟨q, hq, hk⟩ | ⟨q, hq, hk⟩))
      · exact Or.inl (Or.inl (Or.inl h))
      · rcases List.mem_cons.mp hq with hq' | hq'
        · exact Or.inl (Or.inl (Or.inr (hq' ▸ hk)))
        · exact Or.inr (Or.inl ⟨q, hq', hk⟩)
      · rcases List.mem_cons.mp hq with hq' | hq'
        · exact Or.inl (Or.inr (hq' ▸ hk))
        · exact Or.inr (Or.inr ⟨q, hq', hk⟩)

lemma nodupVals_stage4_foldl (fwd : List (String × List String)) :
    ∀ rev, NodupVals rev → NodupVals (fwd.foldl
      (fun rev p => p.2.foldl (revInner p.1) (dictSetdefault rev p.1 [])) rev) := by
  induction fwd with
  | nil => intro rev h; exact h
  | cons p rest ih =>
    intro rev h
    rw [List.foldl_cons]
    exact ih _ (nodupVals_foldl_revInner p.2 p.1 _ (nodupVals_dictSetdefault_nil rev p.1 h))

/-- C9 (confirmed): inverting a forward adjacency map gives every forward
source an entry, gives every name occurring in a forward dependency list an
entry, records in each entry exactly — without duplicates — the sources
that declared that name, creates no other entries, and on the concrete
graph `{A:[B,C], B:[], C:[]}` yields exactly `{A:[], B:[A], C:[A]}`. -/
theorem stage4_reverse_mapping (forward : List (String × List String)) :
    (∀ p ∈ forward, p.1 ∈ (stage4_invert forward).map Prod.fst) ∧
    (∀ p ∈ forward, ∀ d ∈ p.2, d ∈ (stage4_invert forward).map Prod.fst) ∧
    (∀ d l, alookup (stage4_invert forward) d = some l →
      l.Nodup ∧ ∀ src, src ∈ l ↔ ∃ deps, (src, deps) ∈ forward ∧ d ∈ deps) ∧
    (∀ k, k ∈ (stage4_invert forward).map Prod.fst →
      (∃ p ∈ forward, k = p.1) ∨ ∃ p ∈ forward, k ∈ p.2) ∧
    stage4_invert [("A", ["B", "C"]), ("B", []), ("C", [])] =
      [("A", []), ("B", ["A"]), ("C", ["A"])] := by
  refine ⟨?_, ?_, ?_, ?_, by decide⟩
  · intro p hp
    rw [← alookup_isSome_iff, stage4_invert, keys_stage4_foldl]
    exact Or.inr (Or.inl ⟨p, hp, rfl⟩)
  · intro p hp d hd
    rw [← alookup_isSome_iff, stage4_invert, keys_stage4_foldl]
    exact Or.inr (Or.inr ⟨p, hp, hd⟩)
  · intro d l hl
    constructor
    · exact nodupVals_stage4_foldl forward []
        (by intro k l0 h0; simp at h0) d l hl
    · intro src
      have h := revHas_stage4_foldl forward d src []
      rw [revHas, revHas] at h
      rw [show (forward.foldl
          (fun rev p => p.2.foldl (revInner p.1) (dictSetdefault rev p.1 [])) []) =
        stage4_invert forward from rfl, hl] at h
      simpa using h
  · intro k hk
    rw [← alookup_isSome_iff, stage4_invert, keys_stage4_foldl] at hk
    rcases hk with h | h
    · simp at h
    · exact h

/-- C9 witness: on the inverted `{A:[B,C], B:[], C:[]}`, the entry for `B`
is `["A"]`, duplicate-free, and contains `A` exactly because `A` declared
`B`. -/
theorem stage4_reverse_mapping_witness :
    (["A"] : List String).Nodup ∧
    (("A" : String) ∈ (["A"] : List String) ↔
      ∃ deps, (("A" : String), deps) ∈
          [(("A" : String), ["B", "C"]), ("B", ([] : List String)), ("C", [])] ∧
        ("B" : String) ∈ deps) := by
  have h := (stage4_reverse_mapping
      [("A", ["B", "C"]), ("B", []), ("C", [])]).2.2.1 "B" ["A"] (by decide)
  exact ⟨h.1, h.2 "A"⟩
